import Mathlib

/-!
Verification development for the `quantum` state-vector circuit simulator
(crates `quantum` and `editor`).  The Rust source is shallowly embedded:
`ComplexNumber` becomes the structure `Cplx` over `ℝ`, matrices become
lists of lists of `Cplx`, and each Rust function is translated into a
Lean definition of the same name (module paths flattened).
-/

namespace Quantum

noncomputable section

/-- `ComplexNumber` from `complex.rs`: two real components. -/
structure Cplx where
  real : ℝ
  imaginary : ℝ

namespace Cplx

@[ext] theorem ext_iff' {x y : Cplx} (hre : x.real = y.real)
    (him : x.imaginary = y.imaginary) : x = y := by
  cases x; cases y; simp_all

/-- `ComplexNumber::new`. -/
def new (r i : ℝ) : Cplx := ⟨r, i⟩

/-- `ComplexNumber::real` constructor (imaginary part zero). -/
def ofReal (v : ℝ) : Cplx := ⟨v, 0⟩

/-- `impl Add for ComplexNumber`: componentwise. -/
instance : Add Cplx := ⟨fun x y => ⟨x.real + y.real, x.imaginary + y.imaginary⟩⟩

/-- `impl Mul for ComplexNumber`: `(a+bi)(c+di) = (ac-bd) + (ad+bc)i`. -/
instance : Mul Cplx := ⟨fun x y =>
  ⟨x.real * y.real - x.imaginary * y.imaginary,
   x.real * y.imaginary + x.imaginary * y.real⟩⟩

instance : Zero Cplx := ⟨⟨0, 0⟩⟩

instance : One Cplx := ⟨⟨1, 0⟩⟩

@[simp] theorem add_def (x y : Cplx) :
    x + y = ⟨x.real + y.real, x.imaginary + y.imaginary⟩ := rfl

@[simp] theorem mul_real (x y : Cplx) :
    (x * y).real = x.real * y.real - x.imaginary * y.imaginary := rfl

@[simp] theorem mul_imaginary (x y : Cplx) :
    (x * y).imaginary = x.real * y.imaginary + x.imaginary * y.real := rfl

@[simp] theorem zero_real : (0 : Cplx).real = 0 := rfl

@[simp] theorem zero_imaginary : (0 : Cplx).imaginary = 0 := rfl

@[simp] theorem one_real : (1 : Cplx).real = 1 := rfl

@[simp] theorem one_imaginary : (1 : Cplx).imaginary = 0 := rfl

/-- `ComplexNumber::conjugate`: negates the imaginary part. -/
def conjugate (x : Cplx) : Cplx := ⟨x.real, x.imaginary * -1⟩

/-- `ComplexNumber::abs_squared`: `re*re + im*im`. -/
def abs_squared (x : Cplx) : ℝ := x.real * x.real + x.imaginary * x.imaginary

/-- `ComplexNumber::exp`: `e^(x+yi) = e^x cos y + i e^x sin y`. -/
def exp (x : Cplx) : Cplx :=
  ⟨Real.exp x.real * Real.cos x.imaginary, Real.exp x.real * Real.sin x.imaginary⟩

/-- Modelled from the spec: complex division, used by `renormalize` through
`impl Div for ComplexNumber`, whose source file (`quantum/src/complex.rs`) is
not among the provided sources.  The spec (§4.5) says renormalization divides
"every amplitude by √(Σ|ψⱼ|²)"; standard complex division by `c + di`
multiplies by the conjugate and divides by `c² + d²`, which for a real
divisor `m` is componentwise division by `m`. -/
def div (x y : Cplx) : Cplx :=
  ⟨(x.real * y.real + x.imaginary * y.imaginary) / (y.real * y.real + y.imaginary * y.imaginary),
   (x.imaginary * y.real - x.real * y.imaginary) / (y.real * y.real + y.imaginary * y.imaginary)⟩

theorem div_real_divisor (x : Cplx) (m : ℝ) :
    x.div ⟨m, 0⟩ = ⟨x.real / m, x.imaginary / m⟩ := by
  rcases eq_or_ne m 0 with h | h
  · simp [div, h]
  · apply ext_iff' <;> simp [div] <;> field_simp <;> ring

@[simp] theorem abs_squared_zero : (0 : Cplx).abs_squared = 0 := by
  simp [abs_squared]

instance : AddCommMonoid Cplx where
  add_assoc a b c := by apply ext_iff' <;> simp [add_assoc]
  zero_add a := by apply ext_iff' <;> simp
  add_zero a := by apply ext_iff' <;> simp
  add_comm a b := by apply ext_iff' <;> simp [add_comm]
  nsmul := nsmulRec

end Cplx

/-- `SQRT_HALF` constant. -/
def SQRT_HALF : Cplx := ⟨1 / Real.sqrt 2, 0⟩

/-- Matrices are rows of complex numbers (`Matrix.value` in `matrix.rs`);
the shape field is implicit in the row/column list lengths. -/
abbrev Mat := List (List Cplx)

/-- Entry access `m[i][j]`, out-of-range reads defaulting to `0`
(the Rust source only indexes in range). -/
def entry (m : Mat) (i j : ℕ) : Cplx := (m.getD i []).getD j 0

/-- Rectangular matrix builder: row `i`, column `j` holds `f i j`.
Used to express the Rust loops that fill a freshly allocated
`vec![vec![0; cols]; rows]`. -/
def mkMat (rows cols : ℕ) (f : ℕ → ℕ → Cplx) : Mat :=
  (List.range rows).map fun i => (List.range cols).map (f i)

theorem entry_mkMat (rows cols : ℕ) (f : ℕ → ℕ → Cplx) (i j : ℕ)
    (hi : i < rows) (hj : j < cols) : entry (mkMat rows cols f) i j = f i j := by
  simp [entry, mkMat, List.getD_eq_getElem?_getD, List.getElem?_range hi,
    List.getElem?_map, List.getElem?_range hj]

/-- `Matrix::scale`: elementwise multiplication by a scalar. -/
def scale (m : Mat) (s : Cplx) : Mat := m.map fun row => row.map (· * s)

/-- `Matrix::kronecker`: block structure
`out[i*b_rows + k][j*b_cols + l] = A[i][j] * B[k][l]`, written as the
row-major nested iteration the Rust loops perform. -/
def kronecker (a b : Mat) : Mat :=
  a.flatMap fun arow => b.map fun brow => arow.flatMap fun x => brow.map fun y => x * y

/-- `Matrix::dot`: matrix-vector product, `result[i] = Σⱼ row_i[j] * v[j]`
(the source first asserts `self.len() == vector.len()`; all uses below are
on square matrices of the vector's length, where the assertion holds). -/
def dot (m : Mat) (v : List Cplx) : List Cplx :=
  m.map fun row => (List.zipWith (· * ·) row v).sum

/-- `Matrix::identity2`. -/
def identity2 : Mat := [[1, 0], [0, 1]]

/-- `Matrix::pauli_x`. -/
def pauli_x : Mat := [[0, 1], [1, 0]]

/-- `Matrix::pauli_y`. -/
def pauli_y : Mat := [[0, ⟨0, -1⟩], [⟨0, 1⟩, 0]]

/-- `Matrix::pauli_z`. -/
def pauli_z : Mat := [[1, 0], [0, ⟨-1, 0⟩]]

/-- `Matrix::hadamard`. -/
def hadamard : Mat := scale [[1, 1], [1, ⟨-1, 0⟩]] SQRT_HALF

/-- `Matrix::s`. -/
def s_gate : Mat := [[1, 0], [0, ⟨0, 1⟩]]

/-- `Matrix::phase`. -/
def phase (theta : ℝ) : Mat := [[1, 0], [0, Cplx.exp ⟨0, theta⟩]]

/-- `Matrix::rx`: `sin = -sin(θ/2)`, `cos = cos(θ/2)`,
`[[cos, sin·i], [sin·i, cos]]`. -/
def rx (theta : ℝ) : Mat :=
  [[⟨Real.cos (theta / 2), 0⟩, ⟨0, Real.sin (theta / 2) * -1⟩],
   [⟨0, Real.sin (theta / 2) * -1⟩, ⟨Real.cos (theta / 2), 0⟩]]

/-- `Matrix::ry` exactly as in `matrix.rs` lines 108-113:
`[[c!(cos), c!(0.0, sin * -1.0)], [c!(0.0, sin), c!(cos)]]`.
Note both off-diagonal entries are imaginary in the source. -/
def ry (theta : ℝ) : Mat :=
  [[⟨Real.cos (theta / 2), 0⟩, ⟨0, Real.sin (theta / 2) * -1⟩],
   [⟨0, Real.sin (theta / 2)⟩, ⟨Real.cos (theta / 2), 0⟩]]

/-- `Matrix::rz` exactly as in `matrix.rs` lines 115-120:
`[[c!(cos, sin), c!(0.0)], [c!(0.0), c!(cos, -1.0 * sin)]]`. -/
def rz (theta : ℝ) : Mat :=
  [[⟨Real.cos (theta / 2), Real.sin (theta / 2)⟩, 0],
   [0, ⟨Real.cos (theta / 2), -1 * Real.sin (theta / 2)⟩]]

/-- `Matrix::swap`. -/
def swap : Mat :=
  [[1, 0, 0, 0], [0, 0, 1, 0], [0, 1, 0, 0], [0, 0, 0, 1]]

/-- `Matrix::cnot`. -/
def cnot : Mat :=
  [[1, 0, 0, 0], [0, 1, 0, 0], [0, 0, 0, 1], [0, 0, 1, 0]]

/-- `Matrix::cz`. -/
def cz : Mat :=
  [[1, 0, 0, 0], [0, 1, 0, 0], [0, 0, 1, 0], [0, 0, 0, ⟨-1, 0⟩]]

/-- `Matrix::ccx`. -/
def ccx : Mat :=
  [[1, 0, 0, 0, 0, 0, 0, 0],
   [0, 1, 0, 0, 0, 0, 0, 0],
   [0, 0, 1, 0, 0, 0, 0, 0],
   [0, 0, 0, 1, 0, 0, 0, 0],
   [0, 0, 0, 0, 1, 0, 0, 0],
   [0, 0, 0, 0, 0, 1, 0, 0],
   [0, 0, 0, 0, 0, 0, 0, 1],
   [0, 0, 0, 0, 0, 0, 1, 0]]

/-- `Matrix::cswap`. -/
def cswap : Mat :=
  [[1, 0, 0, 0, 0, 0, 0, 0],
   [0, 1, 0, 0, 0, 0, 0, 0],
   [0, 0, 1, 0, 0, 0, 0, 0],
   [0, 0, 0, 1, 0, 0, 0, 0],
   [0, 0, 0, 0, 1, 0, 0, 0],
   [0, 0, 0, 0, 0, 0, 1, 0],
   [0, 0, 0, 0, 0, 1, 0, 0],
   [0, 0, 0, 0, 0, 0, 0, 1]]

/-- `Matrix::cccx`: the loops set the diagonal for indices `0..14` and the
two anti-diagonal entries `(14,15)` and `(15,14)`. -/
def cccx : Mat := mkMat 16 16 fun i j =>
  if (i = j ∧ i < 14) ∨ (i = 14 ∧ j = 15) ∨ (i = 15 ∧ j = 14) then 1 else 0

/-- `tensor_product` from `qubit.rs`: Kronecker product of two vectors. -/
def tensor_product (tensor1 tensor2 : List Cplx) : List Cplx :=
  tensor1.flatMap fun x => tensor2.map fun y => x * y

/-- `Qubit`: a one-qubit basis factor. -/
structure Qubit where
  a : Cplx
  b : Cplx

namespace Qubit

/-- `Qubit::zero`: the ket `|0⟩`. -/
def zero : Qubit := ⟨⟨1, 0⟩, ⟨0, 0⟩⟩

/-- `Qubit::one`: the ket `|1⟩`. -/
def one : Qubit := ⟨⟨0, 0⟩, ⟨1, 0⟩⟩

/-- `Qubit::abs_squared`. -/
def abs_squared (q : Qubit) : ℝ := q.a.abs_squared + q.b.abs_squared

/-- `Qubit::is_normal`: `self.abs_squared() - 1.0 < 0.05`. -/
def is_normal (q : Qubit) : Prop := q.abs_squared - 1 < 0.05

/-- `Qubit::as_vec`. -/
def as_vec (q : Qubit) : List Cplx := [q.a, q.b]

end Qubit

/-- The gate alphabet (`enum Gate` in `qubit.rs`). -/
inductive Gate where
  | I | X | Y | Z | H | M
  | P (theta : ℝ)
  | S
  | RX (theta : ℝ) | RY (theta : ℝ) | RZ (theta : ℝ)
  | CNOT | CZ | SWAP | CCX | CCCX | CSWAP
  | Other (name : String)

namespace Gate

/-- `Gate::to_matrix`. -/
def to_matrix : Gate → Mat
  | .I => identity2
  | .X => pauli_x
  | .Y => pauli_y
  | .Z => pauli_z
  | .H => hadamard
  | .M => identity2
  | .S => s_gate
  | .P theta => phase theta
  | .RX theta => rx theta
  | .RY theta => ry theta
  | .RZ theta => rz theta
  | .CNOT => cnot
  | .CZ => cz
  | .SWAP => swap
  | .CCX => ccx
  | .CCCX => cccx
  | .CSWAP => cswap
  | .Other _ => [[1]]

/-- The variant test `*gate == Gate::M` (derived `PartialEq` compares tags). -/
def isM : Gate → Bool
  | .M => true
  | _ => false

/-- The pattern test `if let Gate::Other(_) = gate`. -/
def isOther : Gate → Bool
  | .Other _ => true
  | _ => false

end Gate

/-- `QubitSystem`: the joint amplitude vector and the number of qubits. -/
structure QubitSystem where
  values : List Cplx
  len : ℕ

/-- Σ|ψᵢ|², the squared norm the source computes as
`values.iter().map(|c| c.abs_squared()).sum()`. -/
def sumAbsSq (values : List Cplx) : ℝ := (values.map Cplx.abs_squared).sum

/-- `QubitSystem::system_normal`: the sum of the amplitudes' absolute
squares minus `1.0` is below `0.05`. -/
def system_normal (values : List Cplx) : Prop := sumAbsSq values - 1 < 0.05

/-- The assertion guarding `QubitSystem::measure`
(`assert!(probabilities.iter().sum::<f64>() - 1.0 < 0.05)`); `measure`
panics exactly when this proposition fails. -/
def measure_assert_ok (values : List Cplx) : Prop := sumAbsSq values - 1 < 0.05

/-- The `while gate_size < len` loop of `QubitSystem::apply_gate`, with an
explicit iteration budget (the Rust loop runs until `gate_size` reaches the
state length; every catalog matrix has at least two rows, so `values.len()`
iterations are always enough). -/
def apply_gate_loop (target : ℕ) (matrix : Mat) (len : ℕ) :
    ℕ → Mat → ℕ → Mat
  | 0, full_gate, _ => full_gate
  | fuel + 1, full_gate, gate_size =>
    if gate_size < len then
      let partialGate := if gate_size / 2 = target then matrix else identity2
      apply_gate_loop target matrix len fuel (kronecker full_gate partialGate)
        (gate_size * partialGate.length)
    else full_gate

/-- `QubitSystem::apply_gate`: builds the full-register operator by the
`while` loop above, then applies it to the amplitude vector. -/
def apply_gate (values : List Cplx) (target : ℕ) (matrix : Mat) : List Cplx :=
  dot (apply_gate_loop target matrix values.length values.length [[1]] 1) values

/-- `QubitSystem::apply_full_gate` (after its size assertion). -/
def apply_full_gate (values : List Cplx) (matrix : Mat) : List Cplx :=
  dot matrix values

/-- The outcome-1 probability computed inside `QubitSystem::measure_single`:
`modulo = 2^(len-target)`, `constraint = modulo/2`, and the sum of
`abs_squared` over enumerated indices with `idx % modulo >= constraint`. -/
def probability_one (values : List Cplx) (len target : ℕ) : ℝ :=
  let modulo := 2 ^ (len - target)
  let constraint := modulo / 2
  (((values.enum.filter fun p => decide (constraint ≤ p.1 % modulo)).map
      fun p => p.2.abs_squared).sum)

/-- `QubitSystem::renormalize`: divide every amplitude by
`√(Σ|ψⱼ|²)` (as the complex scalar `c!(magnitude)`). -/
def renormalize (values : List Cplx) : List Cplx :=
  let magnitude := Real.sqrt ((values.map Cplx.abs_squared).sum)
  values.map fun n => n.div ⟨magnitude, 0⟩

/-- `QubitSystem::measure_single`, with the uniform draw
`rand::random::<f64>()` passed explicitly as `u`.  Returns the measured bit
and the collapsed, renormalized amplitude vector.  `keep` mirrors the
source's vector `(0..len).map(|idx| idx % modulo >= constraint)
.map(|b| if state { b } else { !b })`. -/
def measure_single (values : List Cplx) (len target : ℕ) (u : ℝ) :
    ℕ × List Cplx :=
  let modulo := 2 ^ (len - target)
  let constraint := modulo / 2
  let state : Bool := decide (u < probability_one values len target)
  let keep : ℕ → Bool := fun idx =>
    if state then decide (constraint ≤ idx % modulo)
    else !decide (constraint ≤ idx % modulo)
  let measured := values.enum.map fun p => if keep p.1 then p.2 else 0
  (if state then 1 else 0, renormalize measured)

/-- The `for (idx, gate)` loop of `QubitSystem::apply_gates`: measure on
`M` entries (consuming one uniform draw from `us`), skip `Other` entries,
and fold every other entry's matrix into the running Kronecker product
(the source's `Mul for Matrix` is `kronecker`). -/
def apply_gates_loop (len : ℕ) :
    List Gate → ℕ → List Cplx → List ℝ → Mat → List Cplx × List ℝ × Mat
  | [], _, values, us, full_gate => (values, us, full_gate)
  | gate :: rest, idx, values, us, full_gate =>
    let values' := if gate.isM then (measure_single values len idx (us.headD 0)).2
      else values
    let us' := if gate.isM then us.tail else us
    let full' := if gate.isOther then full_gate
      else kronecker full_gate gate.to_matrix
    apply_gates_loop len rest (idx + 1) values' us' full'

/-- `QubitSystem::apply_gates`: run the loop from the `[[1]]` seed, then
apply the assembled operator to the (possibly measurement-collapsed)
amplitude vector.  (The source also asserts
`values.len() == full_gate.len()` before the final `dot`.) -/
def apply_gates (sys : QubitSystem) (gates : List Gate) (us : List ℝ) :
    QubitSystem :=
  let r := apply_gates_loop sys.len gates 0 sys.values us [[1]]
  ⟨dot r.2.2 r.1, sys.len⟩

/-- `QubitSystem::density_matrix`: `ρ[i][j] = conj(ψᵢ) * ψⱼ`, accumulated
into a zero-initialized `len × len` matrix. -/
def density_matrix (values : List Cplx) : Mat :=
  mkMat values.length values.length fun i j =>
    (values.getD i 0).conjugate * values.getD j 0

/-- `(i >> qubit_idx) & 1` from `partial_trace`. -/
def bitAt (i qubit_idx : ℕ) : ℕ := (i >>> qubit_idx) &&& 1

/-- `(i & ((1 << qubit_idx) - 1)) | ((i >> (qubit_idx + 1)) << qubit_idx)`
from `partial_trace`: delete the bit at position `qubit_idx`. -/
def reduceIdx (i qubit_idx : ℕ) : ℕ :=
  (i &&& ((1 <<< qubit_idx) - 1)) ||| ((i >>> (qubit_idx + 1)) <<< qubit_idx)

/-- `partial_trace` from `qubit.rs`: every pair `(i, j)` of indices below
`2^num_qubits` whose bits at `qubit_idx` agree contributes `ρ[i][j]` to the
reduced entry `(reduce(i), reduce(j))` of a zero-initialized
`2^(n-1) × 2^(n-1)` matrix. -/
def partial_trace (dm : Mat) (qubit_idx num_qubits : ℕ) : Mat :=
  let size := 2 ^ num_qubits
  let reduced_size := size / 2
  mkMat reduced_size reduced_size fun ri rj =>
    ∑ i in Finset.range size, ∑ j in Finset.range size,
      if bitAt i qubit_idx = bitAt j qubit_idx ∧
          reduceIdx i qubit_idx = ri ∧ reduceIdx j qubit_idx = rj then
        entry dm i j
      else 0

/-- `bloch_vector` from `qubit.rs`:
`(2·Re ρ[0][1], 2·Im ρ[0][1], Re ρ[0][0] − Re ρ[1][1])`. -/
def bloch_vector (dm : Mat) : List ℝ :=
  [2 * (entry dm 0 1).real, 2 * (entry dm 0 1).imaginary,
   (entry dm 0 0).real - (entry dm 1 1).real]

/-- The per-qubit trace-out loop of `CircuitManager::step`
(`circuit.rs` lines 206-213): iterate `i` over all tracks, skip the kept
track `qubit_idx`, and pass `i - removed` and the shrinking `size` to
`partial_trace`. -/
def bloch_loop : List ℕ → ℕ → ℕ → ℕ → Mat → Mat
  | [], _, _, _, density => density
  | i :: rest, qubit_idx, removed, size, density =>
    if i ≠ qubit_idx then
      bloch_loop rest qubit_idx (removed + 1) (size - 1)
        (partial_trace density (i - removed) size)
    else
      bloch_loop rest qubit_idx removed size density

/-- The full reduction performed for track `qubit_idx` in
`CircuitManager::step`: build `ρ = ψψ†`, then run the trace-out loop. -/
def bloch_reduce (values : List Cplx) (qubit_idx registers : ℕ) : Mat :=
  bloch_loop (List.range registers) qubit_idx 0 registers
    (density_matrix values)

/-- `CircuitManager` state (UI-mediation fields included). -/
structure CircuitManager where
  system : QubitSystem
  gates : List (List Gate)
  current_drag : Gate
  dragging_wire : Bool × ℕ × ℕ
  wires : List (ℕ × ℕ × ℕ)
  registers : ℕ
  step : ℕ

/-- `log2` from `circuit.rs`: defined on the matrix sizes that occur
(powers of two up to 32); the source panics on any other input, which the
embedding maps to `0`. -/
def log2 (n : ℕ) : ℕ :=
  match n with
  | 1 => 0
  | 2 => 1
  | 4 => 2
  | 8 => 3
  | 16 => 4
  | 32 => 5
  | _ => 0

/-- The placeholder-restoration loop of `handle_drop`: promote a leading
run of `Other("none")` entries back to `I`, stopping at the first other
gate (the loop `break`s there). -/
def restore_nones : List Gate → List Gate
  | .Other "none" :: rest => .I :: restore_nones rest
  | l => l

/-- `CircuitManager::handle_drop`.  The wire branch records a wire; the
size check rejects a gate needing more tracks than remain (the source then
only emits a JS `alert`); otherwise the gate is written, placeholders are
laid down, and a final all-identity column is appended when dropping on
the last column. -/
def handle_drop (self : CircuitManager) (column register : ℕ) :
    CircuitManager :=
  if self.dragging_wire.1 then
    if self.dragging_wire.2.1 = column ∧ register ≠ self.dragging_wire.2.2 then
      { self with wires := self.wires ++ [(column, self.dragging_wire.2.2, register)] }
    else self
  else
    let size := log2 self.current_drag.to_matrix.length
    if self.registers - register < size then self
    else
      let col0 := self.gates.getD column []
      let col1 := col0.take (register + 1) ++ restore_nones (col0.drop (register + 1))
      let col2 := col1.set register self.current_drag
      let mat_len := self.current_drag.to_matrix.length
      let col3 :=
        if 2 < mat_len then
          (List.range (log2 mat_len - 1)).foldl
            (fun c i => c.set (register + 1 + i) (.Other "none")) col2
        else col2
      let next := { self with gates := self.gates.set column col3 }
      if column = self.gates.length - 1 then
        { next with gates := next.gates ++ [List.replicate next.registers Gate.I] }
      else next

/-- Bit-insertion: the inverse of `reduceIdx`/`bitAt`, placing bit value
`v` at position `q` of `r`.  Used to state what `partial_trace` computes. -/
def ins (r q v : ℕ) : ℕ := r % 2 ^ q + v * 2 ^ q + r / 2 ^ q * 2 ^ (q + 1)

/-- The reduced density matrix of track `track` of an `n`-qubit register,
under the register's Kronecker ordering: track `0` is the most significant
bit of the state index (the convention `measure_single` uses), so track
`track` is bit position `n - 1 - track` counted from the least significant
bit.  Entry `(x, y)` sums `conj(ψ_i)·ψ_j` over all index pairs that agree
outside that bit position and carry `x` resp. `y` on it. -/
def reduced_density_track (values : List Cplx) (n track x y : ℕ) : Cplx :=
  ∑ k in Finset.range (2 ^ (n - 1)),
    (values.getD (ins k (n - 1 - track) x) 0).conjugate *
      values.getD (ins k (n - 1 - track) y) 0

/-- Entry `(x, y)` of the matrix obtained from an `m`-qubit matrix by
tracing out every bit position except position `b`: the sum of the entries
of `dm` over all index pairs agreeing outside position `b` and carrying
`x` resp. `y` there. -/
def traceAllBut (dm : Mat) (m b x y : ℕ) : Cplx :=
  ∑ k in Finset.range (2 ^ (m - 1)), entry dm (ins k b x) (ins k b y)

/-- Iterating `partial_trace` at bit position `1` with a shrinking size:
the shape `bloch_loop` takes once the kept track has been passed. -/
def pt1_iter : ℕ → ℕ → Mat → Mat
  | 0, _, dm => dm
  | k + 1, size, dm => pt1_iter k (size - 1) (partial_trace dm 1 size)

/-- The `m × m` identity matrix (as a list matrix). -/
def idMat (m : ℕ) : Mat :=
  (List.range m).map fun i => (List.range m).map fun j => if i = j then 1 else 0

/-- A normalized one-qubit state, `(√2/2)(|0⟩ + i|1⟩)`: concrete input for
evaluating `apply_gates` on an `RY` column. -/
def ryState : List Cplx := [⟨Real.sqrt 2 / 2, 0⟩, ⟨0, Real.sqrt 2 / 2⟩]

/-- A concrete circuit-manager state: one register, a `CNOT` being dragged,
no active wire drag. -/
def cm0 : CircuitManager :=
  ⟨⟨[⟨1, 0⟩, ⟨0, 0⟩], 1⟩, [[Gate.I]], Gate.CNOT, (false, 0, 0), [], 1, 0⟩

/-- The state `|01⟩` of a two-qubit register. -/
def ket01 : List Cplx := [0, 1, 0, 0]

/-! ## Arithmetic helper lemmas: bit extraction, bit deletion, bit insertion -/

theorem bitAt_eq (i q : ℕ) : bitAt i q = i / 2 ^ q % 2 := by
  unfold bitAt
  rw [Nat.shiftRight_eq_div_pow, Nat.and_one_is_mod]

theorem bitAt_le_one (i q : ℕ) : bitAt i q ≤ 1 := by
  rw [bitAt_eq]; omega

theorem lor_disjoint_add (q : ℕ) :
    ∀ lo hi : ℕ, lo < 2 ^ q → lo ||| hi <<< q = lo + hi <<< q := by
  induction q with
  | zero =>
    intro lo hi hlo
    interval_cases lo
    simp [Nat.shiftLeft_zero]
  | succ q ih =>
    intro lo hi hlo
    have h2 : hi <<< (q + 1) = Nat.bit false (hi <<< q) := by
      simp [Nat.bit, Nat.shiftLeft_eq, pow_succ]; ring
    have hlt : lo >>> 1 < 2 ^ q := by
      rw [Nat.shiftRight_eq_div_pow, pow_one, Nat.div_lt_iff_lt_mul (by norm_num)]
      calc lo < 2 ^ (q + 1) := hlo
        _ = 2 ^ q * 2 := by rw [pow_succ]
    rw [← Nat.bit_testBit_zero_shiftRight_one lo, h2, Nat.lor_bit, ih _ _ hlt]
    cases lo.testBit 0 <;> simp [Nat.bit] <;> ring

theorem reduceIdx_eq (i q : ℕ) :
    reduceIdx i q = i % 2 ^ q + i / 2 ^ (q + 1) * 2 ^ q := by
  unfold reduceIdx
  rw [Nat.one_shiftLeft, Nat.and_pow_two_sub_one_eq_mod, Nat.shiftRight_eq_div_pow,
    lor_disjoint_add q _ _ (Nat.mod_lt _ (by positivity)), Nat.shiftLeft_eq]

theorem pow_div_two {n : ℕ} (h : 0 < n) : 2 ^ n / 2 = 2 ^ (n - 1) := by
  obtain ⟨m, rfl⟩ : ∃ m, n = m + 1 := ⟨n - 1, by omega⟩
  rw [pow_succ, Nat.mul_div_cancel _ (by norm_num)]
  simp

theorem ins_lt {r q v n : ℕ} (hr : r < 2 ^ (n - 1)) (hv : v ≤ 1) (hq : q < n) :
    ins r q v < 2 ^ n := by
  obtain ⟨d, rfl⟩ : ∃ d, n = q + 1 + d := ⟨n - (q + 1), by omega⟩
  unfold ins
  have h1 : r % 2 ^ q < 2 ^ q := Nat.mod_lt _ (by positivity)
  have h2 : r / 2 ^ q < 2 ^ d := by
    rw [Nat.div_lt_iff_lt_mul (by positivity)]
    calc r < 2 ^ (q + 1 + d - 1) := hr
      _ = 2 ^ d * 2 ^ q := by rw [← pow_add]; congr 1; omega
  have hv2 : v * 2 ^ q ≤ 2 ^ q := by
    calc v * 2 ^ q ≤ 1 * 2 ^ q := Nat.mul_le_mul_right _ hv
      _ = 2 ^ q := one_mul _
  have h3 : r / 2 ^ q * 2 ^ (q + 1) ≤ 2 ^ (q + 1 + d) - 2 ^ (q + 1) := by
    have key : (2 ^ d - 1) * 2 ^ (q + 1) = 2 ^ (q + 1 + d) - 2 ^ (q + 1) := by
      rw [Nat.sub_mul, one_mul, ← pow_add]
      congr 2
      omega
    calc r / 2 ^ q * 2 ^ (q + 1) ≤ (2 ^ d - 1) * 2 ^ (q + 1) :=
          Nat.mul_le_mul_right _ (by omega)
      _ = 2 ^ (q + 1 + d) - 2 ^ (q + 1) := key
  have e1 : 2 ^ (q + 1) = 2 * 2 ^ q := by rw [pow_succ]; ring
  have e2 : 2 ^ (q + 1) ≤ 2 ^ (q + 1 + d) := Nat.pow_le_pow_right (by norm_num) (by omega)
  omega

theorem reduceIdx_ins (r q v : ℕ) (hv : v ≤ 1) : reduceIdx (ins r q v) q = r := by
  rw [reduceIdx_eq]
  unfold ins
  have hp : (0 : ℕ) < 2 ^ q := by positivity
  have hlo : r % 2 ^ q < 2 ^ q := Nat.mod_lt _ hp
  have hsplit : r % 2 ^ q + v * 2 ^ q + r / 2 ^ q * 2 ^ (q + 1)
      = (r % 2 ^ q + v * 2 ^ q) + r / 2 ^ q * 2 ^ (q + 1) := by ring
  have hsmall : r % 2 ^ q + v * 2 ^ q < 2 ^ (q + 1) := by
    have hv2 : v * 2 ^ q ≤ 2 ^ q := by
      calc v * 2 ^ q ≤ 1 * 2 ^ q := Nat.mul_le_mul_right _ hv
        _ = 2 ^ q := one_mul _
    have e1 : 2 ^ (q + 1) = 2 * 2 ^ q := by rw [pow_succ]; ring
    omega
  have hmod : (r % 2 ^ q + v * 2 ^ q + r / 2 ^ q * 2 ^ (q + 1)) % 2 ^ q = r % 2 ^ q := by
    have e : r % 2 ^ q + v * 2 ^ q + r / 2 ^ q * 2 ^ (q + 1)
        = r % 2 ^ q + (v + r / 2 ^ q * 2) * 2 ^ q := by rw [pow_succ]; ring
    rw [e, Nat.add_mul_mod_self_right, Nat.mod_eq_of_lt hlo]
  have hdiv : (r % 2 ^ q + v * 2 ^ q + r / 2 ^ q * 2 ^ (q + 1)) / 2 ^ (q + 1) = r / 2 ^ q := by
    rw [hsplit, Nat.add_mul_div_right _ _ (by positivity), Nat.div_eq_of_lt hsmall, zero_add]
  rw [hmod, hdiv, Nat.mod_add_div']

theorem bitAt_ins (r q v : ℕ) (hv : v ≤ 1) : bitAt (ins r q v) q = v := by
  rw [bitAt_eq]
  unfold ins
  have hp : (0 : ℕ) < 2 ^ q := by positivity
  have hlo : r % 2 ^ q < 2 ^ q := Nat.mod_lt _ hp
  have e : r % 2 ^ q + v * 2 ^ q + r / 2 ^ q * 2 ^ (q + 1)
      = r % 2 ^ q + (v + r / 2 ^ q * 2) * 2 ^ q := by rw [pow_succ]; ring
  rw [e, Nat.add_mul_div_right _ _ hp, Nat.div_eq_of_lt hlo, zero_add,
    Nat.add_mul_mod_self_right, Nat.mod_eq_of_lt (by omega)]

theorem ins_reduceIdx_bitAt (i q : ℕ) : ins (reduceIdx i q) q (bitAt i q) = i := by
  rw [reduceIdx_eq, bitAt_eq]
  unfold ins
  have hp : (0 : ℕ) < 2 ^ q := by positivity
  have hlo : i % 2 ^ q < 2 ^ q := Nat.mod_lt _ hp
  have hm : (i % 2 ^ q + i / 2 ^ (q + 1) * 2 ^ q) % 2 ^ q = i % 2 ^ q := by
    rw [Nat.add_mul_mod_self_right, Nat.mod_eq_of_lt hlo]
  have hd : (i % 2 ^ q + i / 2 ^ (q + 1) * 2 ^ q) / 2 ^ q = i / 2 ^ (q + 1) := by
    rw [Nat.add_mul_div_right _ _ hp, Nat.div_eq_of_lt hlo, zero_add]
  rw [hm, hd]
  have key : i / 2 ^ q = i / 2 ^ q % 2 + 2 * (i / 2 ^ (q + 1)) := by
    have h1 : i / 2 ^ q / 2 = i / 2 ^ (q + 1) := by
      rw [Nat.div_div_eq_div_mul, ← pow_succ]
    omega
  have base : i % 2 ^ q + i / 2 ^ q * 2 ^ q = i := Nat.mod_add_div' i (2 ^ q)
  calc i % 2 ^ q + i / 2 ^ q % 2 * 2 ^ q + i / 2 ^ (q + 1) * 2 ^ (q + 1)
      = i % 2 ^ q + (i / 2 ^ q % 2 + 2 * (i / 2 ^ (q + 1))) * 2 ^ q := by
        rw [pow_succ]; ring
    _ = i % 2 ^ q + i / 2 ^ q * 2 ^ q := by rw [← key]
    _ = i := base

theorem ins_zero (k v : ℕ) : ins k 0 v = 2 * k + v := by
  unfold ins
  simp [Nat.mod_one]
  omega

theorem ins_succ (k t x v : ℕ) (hv : v ≤ 1) :
    ins (2 * k + v) (t + 1) x = 2 * ins k t x + v := by
  unfold ins
  have hp : (0 : ℕ) < 2 ^ t := by positivity
  have hlo : k % 2 ^ t < 2 ^ t := Nat.mod_lt _ hp
  have hsplit : 2 * k + v = (2 * (k % 2 ^ t) + v) + k / 2 ^ t * 2 ^ (t + 1) := by
    conv_lhs => rw [← Nat.mod_add_div' k (2 ^ t)]
    rw [pow_succ]; ring
  have hsmall : 2 * (k % 2 ^ t) + v < 2 ^ (t + 1) := by
    have e1 : 2 ^ (t + 1) = 2 * 2 ^ t := by rw [pow_succ]; ring
    omega
  have hm : (2 * k + v) % 2 ^ (t + 1) = 2 * (k % 2 ^ t) + v := by
    rw [hsplit, Nat.add_mul_mod_self_right, Nat.mod_eq_of_lt hsmall]
  have hd : (2 * k + v) / 2 ^ (t + 1) = k / 2 ^ t := by
    rw [hsplit, Nat.add_mul_div_right _ _ (by positivity), Nat.div_eq_of_lt hsmall, zero_add]
  rw [hm, hd]
  have e1 : 2 ^ (t + 1) = 2 * 2 ^ t := by rw [pow_succ]; ring
  have e2 : 2 ^ (t + 2) = 2 * 2 ^ (t + 1) := by rw [pow_succ (2 : ℕ) (t + 1)]; ring
  calc 2 * (k % 2 ^ t) + v + x * 2 ^ (t + 1) + k / 2 ^ t * 2 ^ (t + 1 + 1)
      = 2 * (k % 2 ^ t + x * 2 ^ t + k / 2 ^ t * 2 ^ (t + 1)) + v := by
        rw [e1, e2]; ring
    _ = 2 * ins k t x + v := by rw [ins]

/-! ## Entry characterization of `partial_trace` -/

theorem entry_partial_trace (dm : Mat) (q n ri rj : ℕ) (hq : q < n)
    (hi : ri < 2 ^ (n - 1)) (hj : rj < 2 ^ (n - 1)) :
    entry (partial_trace dm q n) ri rj
      = entry dm (ins ri q 0) (ins rj q 0) + entry dm (ins ri q 1) (ins rj q 1) := by
  have hn : 0 < n := by omega
  have hhalf : 2 ^ n / 2 = 2 ^ (n - 1) := pow_div_two hn
  unfold partial_trace
  rw [entry_mkMat _ _ _ _ _ (by omega) (by omega)]
  have step1 : ∀ i ∈ Finset.range (2 ^ n),
      (∑ j in Finset.range (2 ^ n),
          if bitAt i q = bitAt j q ∧ reduceIdx i q = ri ∧ reduceIdx j q = rj then
            entry dm i j else 0)
        = if reduceIdx i q = ri then entry dm i (ins rj q (bitAt i q)) else 0 := by
    intro i _
    have hb := bitAt_le_one i q
    have hmem : ins rj q (bitAt i q) ∈ Finset.range (2 ^ n) :=
      Finset.mem_range.mpr (ins_lt hj hb hq)
    rw [Finset.sum_eq_single_of_mem _ hmem]
    · rw [bitAt_ins _ _ _ hb, reduceIdx_ins _ _ _ hb]
      by_cases hri : reduceIdx i q = ri <;> simp [hri]
    · intro j _ hne
      rw [if_neg]
      rintro ⟨hbj, _, hrj⟩
      exact hne (by rw [← ins_reduceIdx_bitAt j q, hrj, ← hbj])
  rw [Finset.sum_congr rfl step1, ← Finset.sum_filter]
  have hne01 : ins ri q 0 ≠ ins ri q 1 := by
    intro h
    have h0 := bitAt_ins ri q 0 (by omega)
    have h1 := bitAt_ins ri q 1 (by omega)
    rw [h] at h0
    omega
  have hset : (Finset.range (2 ^ n)).filter (fun i => reduceIdx i q = ri)
      = {ins ri q 0, ins ri q 1} := by
    ext i
    simp only [Finset.mem_filter, Finset.mem_range, Finset.mem_insert,
      Finset.mem_singleton]
    constructor
    · rintro ⟨_, hred⟩
      have hb := bitAt_le_one i q
      have : bitAt i q = 0 ∨ bitAt i q = 1 := by omega
      rcases this with h0 | h1
      · exact Or.inl (by rw [← ins_reduceIdx_bitAt i q, hred, h0])
      · exact Or.inr (by rw [← ins_reduceIdx_bitAt i q, hred, h1])
    · rintro (rfl | rfl)
      · exact ⟨ins_lt hi (by omega) hq, reduceIdx_ins _ _ _ (by omega)⟩
      · exact ⟨ins_lt hi (by omega) hq, reduceIdx_ins _ _ _ (by omega)⟩
  rw [hset, Finset.sum_pair hne01, bitAt_ins _ _ _ (by omega), bitAt_ins _ _ _ (by omega)]

/-! ## List / Finset sum bridges -/

theorem list_map_sum_range {β : Type} [AddCommMonoid β] (v : List Cplx) (f : Cplx → β) :
    (v.map f).sum = ∑ j in Finset.range v.length, f (v.getD j 0) := by
  induction v with
  | nil => simp
  | cons x xs ih =>
    simp only [List.map_cons, List.sum_cons, List.length_cons, ih,
      Finset.sum_range_succ']
    simp [add_comm]

theorem enumFrom_filter_map_sum (v : List Cplx) (k : ℕ) (p : ℕ → Bool)
    (f : Cplx → ℝ) :
    (((List.enumFrom k v).filter fun q => p q.1).map fun q => f q.2).sum
      = ∑ j in Finset.range v.length, if p (k + j) then f (v.getD j 0) else 0 := by
  induction v generalizing k with
  | nil => simp
  | cons x xs ih =>
    have tail :
        (((List.enumFrom (k + 1) xs).filter fun q => p q.1).map fun q => f q.2).sum
          = ∑ j in Finset.range xs.length,
              if p (k + (j + 1)) then f (xs.getD j 0) else 0 := by
      rw [ih (k + 1)]
      exact Finset.sum_congr rfl fun j _ => by rw [show k + 1 + j = k + (j + 1) by omega]
    rw [List.enumFrom_cons, List.filter_cons]
    by_cases hp : p k
    · simp only [hp, if_true, List.map_cons, List.sum_cons, List.length_cons,
        Finset.sum_range_succ', List.getD_cons_succ, List.getD_cons_zero, Nat.add_zero]
      rw [tail]
      exact add_comm _ _
    · simp only [hp, Bool.false_eq_true, if_false, List.length_cons,
        Finset.sum_range_succ', List.getD_cons_succ, List.getD_cons_zero, Nat.add_zero]
      rw [tail]
      simp [hp]

theorem enumFrom_mask_map_sum (v : List Cplx) (k : ℕ) (keep : ℕ → Prop)
    [DecidablePred keep] (f : Cplx → ℝ) (hf : f 0 = 0) :
    (((List.enumFrom k v).map fun q => if keep q.1 then q.2 else 0).map f).sum
      = ∑ j in Finset.range v.length, if keep (k + j) then f (v.getD j 0) else 0 := by
  induction v generalizing k with
  | nil => simp
  | cons x xs ih =>
    have tail :
        (((List.enumFrom (k + 1) xs).map fun q => if keep q.1 then q.2 else 0).map f).sum
          = ∑ j in Finset.range xs.length,
              if keep (k + (j + 1)) then f (xs.getD j 0) else 0 := by
      rw [ih (k + 1)]
      exact Finset.sum_congr rfl fun j _ => by rw [show k + 1 + j = k + (j + 1) by omega]
    rw [List.enumFrom_cons]
    simp only [List.map_cons, List.sum_cons, List.length_cons, Finset.sum_range_succ',
      List.getD_cons_succ, List.getD_cons_zero, Nat.add_zero]
    rw [tail]
    by_cases hp : keep k
    · simp only [if_pos hp]
      exact add_comm _ _
    · simp only [if_neg hp, hf]
      exact add_comm _ _

theorem getD_map_lt (l : List Cplx) (h : Cplx → Cplx) (j : ℕ) (hj : j < l.length) :
    (l.map h).getD j 0 = h (l.getD j 0) := by
  rw [List.getD_eq_getElem _ _ (by simpa using hj), List.getD_eq_getElem _ _ hj,
    List.getElem_map]

theorem getD_enumFrom_mask (v : List Cplx) (k : ℕ) (keep : ℕ → Prop)
    [DecidablePred keep] (j : ℕ) (hj : j < v.length) :
    ((List.enumFrom k v).map fun q => if keep q.1 then q.2 else 0).getD j 0
      = if keep (k + j) then v.getD j 0 else 0 := by
  have hl : j < ((List.enumFrom k v).map fun q => if keep q.1 then q.2 else 0).length := by
    simpa using hj
  rw [List.getD_eq_getElem _ _ hl, List.getElem_map, List.getElem_enumFrom,
    List.getD_eq_getElem _ _ hj]

theorem abs_squared_nonneg (x : Cplx) : 0 ≤ x.abs_squared :=
  add_nonneg (mul_self_nonneg _) (mul_self_nonneg _)

theorem abs_squared_div_real (x : Cplx) (g : ℝ) :
    (x.div ⟨g, 0⟩).abs_squared = x.abs_squared / (g * g) := by
  rw [Cplx.div_real_divisor]
  unfold Cplx.abs_squared
  rcases eq_or_ne g 0 with h | h
  · simp [h]
  · field_simp

theorem measure_single_fst (values : List Cplx) (len target : ℕ) (u : ℝ) :
    (measure_single values len target u).1
      = if u < probability_one values len target then 1 else 0 := by
  by_cases h : u < probability_one values len target
  · simp [measure_single, h]
  · simp [measure_single, h]

theorem probability_one_eq (values : List Cplx) (len target : ℕ) :
    probability_one values len target
      = ∑ j in Finset.range values.length,
          if 2 ^ (len - target) / 2 ≤ j % 2 ^ (len - target)
          then (values.getD j 0).abs_squared else 0 := by
  unfold probability_one
  dsimp only
  have he : values.enum = List.enumFrom 0 values := rfl
  rw [he, enumFrom_filter_map_sum values 0
    (fun a => decide (2 ^ (len - target) / 2 ≤ a % 2 ^ (len - target)))
    (fun c => c.abs_squared)]
  exact Finset.sum_congr rfl fun j _ => by simp

/-! ## Claims -/

/-- Claim C10: the normalization predicates are one-sided.  `system_normal`
holds exactly when `Σ|ψᵢ|² < 1 + ε` (so it accepts every under-normalized
vector, the all-zero vector included, and rejects only squared norms at
least `1 + ε`); `Qubit::is_normal` behaves the same way on
`|a|² + |b|²`. -/
theorem claim_C10_one_sided_normal_checks :
    (∀ values : List Cplx, system_normal values ↔ sumAbsSq values < 1 + 0.05) ∧
    (∀ k : ℕ, system_normal (List.replicate k 0)) ∧
    (∀ q : Qubit, q.is_normal ↔ q.abs_squared < 1 + 0.05) := by
  refine ⟨fun values => ?_, fun k => ?_, fun q => ?_⟩
  · unfold system_normal
    constructor <;> intro h <;> linarith
  · unfold system_normal sumAbsSq
    simp [List.map_replicate, List.sum_replicate]
    norm_num
  · unfold Qubit.is_normal
    constructor <;> intro h <;> linarith

/-- Claim C5, counterexample: the single-amplitude vector `[0]` has squared
norm `0`, deviating from `1` by more than `ε = 0.05`, yet `measure`'s
normalization assertion passes on it (the assert condition is the one-sided
`Σ - 1 < 0.05`). -/
theorem claim_C5_counterexample :
    measure_assert_ok [(0 : Cplx)] ∧ |sumAbsSq [(0 : Cplx)] - 1| > 0.05 := by
  constructor
  · unfold measure_assert_ok sumAbsSq
    simp
    norm_num
  · unfold sumAbsSq
    simp
    norm_num

/-- Claim C5, amended: `measure`'s normalization assertion fails exactly
when `Σ|ψᵢ|²` is at least `1 + ε`; it never fires on an under-normalized
state. -/
theorem claim_C5_assert_one_sided (values : List Cplx) :
    ¬ measure_assert_ok values ↔ 1 + 0.05 ≤ sumAbsSq values := by
  unfold measure_assert_ok
  constructor <;> intro h <;> [linarith; linarith]

/-- Witness for `claim_C5_assert_one_sided` at the concrete vector `[1, 1]`
(squared norm `2 ≥ 1.05`), where the assertion indeed fails. -/
theorem claim_C5_assert_one_sided_witness :
    ¬ measure_assert_ok [(1 : Cplx), 1] :=
  (claim_C5_assert_one_sided [(1 : Cplx), 1]).mpr (by
    unfold sumAbsSq
    simp [Cplx.abs_squared]
    norm_num)

/-- Claim C3, counterexample: at `θ = π` the source's `RZ` entry `[0][0]` is
`cos(π/2) + i·sin(π/2) = i`, not the claimed `cos(π/2) − i·sin(π/2) = −i`. -/
theorem claim_C3_counterexample :
    entry (rz Real.pi) 0 0 ≠ ⟨Real.cos (Real.pi / 2), -Real.sin (Real.pi / 2)⟩ := by
  intro h
  have him := congrArg Cplx.imaginary h
  simp only [rz, entry, List.getD_cons_zero] at him
  rw [Real.sin_pi_div_two] at him
  norm_num at him

/-- Claim C3, amended: the source's `RZ(θ)` is `diag(e^{iθ/2}, e^{−iθ/2})` —
the conjugate of the claimed matrix: entry `[0][0]` is
`cos(θ/2) + i·sin(θ/2)`, entry `[1][1]` is `cos(θ/2) − i·sin(θ/2)`, and the
off-diagonal entries are zero. -/
theorem claim_C3_rz_conjugate_diag (theta : ℝ) :
    entry (rz theta) 0 0 = Cplx.exp ⟨0, theta / 2⟩ ∧
    entry (rz theta) 1 1 = Cplx.exp ⟨0, -(theta / 2)⟩ ∧
    entry (rz theta) 0 1 = 0 ∧ entry (rz theta) 1 0 = 0 := by
  refine ⟨?_, ?_, ?_, ?_⟩ <;>
    · apply Cplx.ext_iff' <;>
        simp [rz, entry, Cplx.exp, Real.exp_zero, Real.cos_neg, Real.sin_neg]

/-- Claim C4: evaluation at the failing input `θ = π/2`.  The source's `RY`
off-diagonal entries are imaginary (`[0][1] = −i·sin(π/4)`), contradicting
the claim (and spec §4.3), which requires the real entry `−sin(π/4)`. -/
theorem claim_C4_eval_ry_imaginary :
    entry (ry (Real.pi / 2)) 0 1 = ⟨0, -(Real.sqrt 2 / 2)⟩ ∧
    entry (ry (Real.pi / 2)) 0 1 ≠ ⟨-Real.sin (Real.pi / 2 / 2), 0⟩ := by
  have hs : Real.sin (Real.pi / 2 / 2) = Real.sqrt 2 / 2 := by
    rw [show Real.pi / 2 / 2 = Real.pi / 4 by ring, Real.sin_pi_div_four]
  have hpos : 0 < Real.sqrt 2 := Real.sqrt_pos.mpr (by norm_num)
  constructor
  · apply Cplx.ext_iff' <;> simp [ry, entry, hs]
  · intro h
    have hre := congrArg Cplx.real h
    simp only [ry, entry, List.getD_cons_zero, List.getD_cons_succ] at hre
    rw [hs] at hre
    have : (0 : ℝ) = -(Real.sqrt 2 / 2) := hre
    linarith

/-- Claim C8: `handle_drop` rejects an oversized gate atomically.  When no
wire drag is active and the dragged gate needs more tracks than remain
below the drop point (`registers − track < k`), the circuit manager is
returned unchanged: grid, wires and state vector are untouched. -/
theorem claim_C8_oversized_drop_unchanged (cm : CircuitManager)
    (column register : ℕ) (hwire : cm.dragging_wire.1 = false)
    (hsize : cm.registers - register < log2 cm.current_drag.to_matrix.length) :
    handle_drop cm column register = cm := by
  unfold handle_drop
  rw [hwire]
  simp only [Bool.false_eq_true, if_false]
  rw [if_pos hsize]

/-- Witness for `claim_C8_oversized_drop_unchanged`: dropping a `CNOT`
(2-qubit gate) on the only track of a 1-register circuit is rejected and
changes nothing. -/
theorem claim_C8_oversized_drop_unchanged_witness : handle_drop cm0 0 0 = cm0 :=
  claim_C8_oversized_drop_unchanged cm0 0 0 rfl (by
    show cm0.registers - 0 < log2 (Gate.to_matrix cm0.current_drag).length
    norm_num [cm0, Gate.to_matrix, cnot, log2])

/-- Claim C6: `measure_single` returns `1` precisely when the uniform draw
`u` is below the outcome-1 probability, computed as the sum of `|ψⱼ|²` over
exactly the indices `j` with `j mod 2^(n−target) ≥ 2^(n−target)/2`; it
returns `0` otherwise. -/
theorem claim_C6_measure_single_formula (values : List Cplx)
    (len target : ℕ) (u : ℝ) :
    (measure_single values len target u).1
      = if u < ∑ j in (Finset.range values.length).filter
            (fun j => 2 ^ (len - target) / 2 ≤ j % 2 ^ (len - target)),
            (values.getD j 0).abs_squared
        then 1 else 0 := by
  rw [measure_single_fst, probability_one_eq, ← Finset.sum_filter]

/-! ## Measurement collapse helper lemmas -/

theorem measure_single_snd_pos (values : List Cplx) (len target : ℕ) (u : ℝ)
    (h : u < probability_one values len target) :
    (measure_single values len target u).2
      = renormalize (values.enum.map fun p =>
          if 2 ^ (len - target) / 2 ≤ p.1 % 2 ^ (len - target) then p.2 else 0) := by
  simp [measure_single, h]

theorem measure_single_snd_neg (values : List Cplx) (len target : ℕ) (u : ℝ)
    (h : ¬ u < probability_one values len target) :
    (measure_single values len target u).2
      = renormalize (values.enum.map fun p =>
          if ¬ 2 ^ (len - target) / 2 ≤ p.1 % 2 ^ (len - target) then p.2 else 0) := by
  simp [measure_single, h]

theorem probability_one_renorm_mask (values : List Cplx) (len target : ℕ)
    (keep : ℕ → Prop) [DecidablePred keep] :
    probability_one
        (renormalize (values.enum.map fun p => if keep p.1 then p.2 else 0))
        len target
      = (∑ j in Finset.range values.length,
            if 2 ^ (len - target) / 2 ≤ j % 2 ^ (len - target) then
              (if keep j then (values.getD j 0).abs_squared else 0) else 0)
        / (Real.sqrt (∑ j in Finset.range values.length,
              if keep j then (values.getD j 0).abs_squared else 0)
          * Real.sqrt (∑ j in Finset.range values.length,
              if keep j then (values.getD j 0).abs_squared else 0)) := by
  have hlen : (values.enum.map fun p => if keep p.1 then p.2 else 0).length
      = values.length := by simp
  have hS : ((values.enum.map fun p => if keep p.1 then p.2 else 0).map
        Cplx.abs_squared).sum
      = ∑ j in Finset.range values.length,
          if keep j then (values.getD j 0).abs_squared else 0 := by
    rw [show values.enum = List.enumFrom 0 values from rfl,
      enumFrom_mask_map_sum values 0 keep Cplx.abs_squared (by simp)]
    exact Finset.sum_congr rfl fun j _ => by rw [Nat.zero_add]
  unfold renormalize
  dsimp only
  rw [hS, probability_one_eq, List.length_map, hlen]
  have step : ∀ j ∈ Finset.range values.length,
      (if 2 ^ (len - target) / 2 ≤ j % 2 ^ (len - target) then
          (((values.enum.map fun p : ℕ × Cplx => if keep p.1 then p.2 else 0).map
              fun n : Cplx =>
              n.div ⟨Real.sqrt (∑ j in Finset.range values.length,
                if keep j then (values.getD j 0).abs_squared else 0), 0⟩).getD j 0).abs_squared
        else 0)
      = (if 2 ^ (len - target) / 2 ≤ j % 2 ^ (len - target) then
            (if keep j then (values.getD j 0).abs_squared else 0) else 0)
        / (Real.sqrt (∑ j in Finset.range values.length,
              if keep j then (values.getD j 0).abs_squared else 0)
          * Real.sqrt (∑ j in Finset.range values.length,
              if keep j then (values.getD j 0).abs_squared else 0)) := by
    intro j hj
    have hj' : j < values.length := Finset.mem_range.mp hj
    rw [getD_map_lt _ _ _ (by rw [hlen]; exact hj'),
      show values.enum = List.enumFrom 0 values from rfl,
      getD_enumFrom_mask values 0 keep j hj', Nat.zero_add]
    by_cases hc : 2 ^ (len - target) / 2 ≤ j % 2 ^ (len - target)
    · rw [if_pos hc, if_pos hc, abs_squared_div_real]
      by_cases hk : keep j
      · rw [if_pos hk, if_pos hk]
      · rw [if_neg hk, if_neg hk]
        simp
    · rw [if_neg hc, if_neg hc, zero_div]
  rw [Finset.sum_congr rfl step, ← Finset.sum_div]

theorem prob_renorm_pos (values : List Cplx) (len target : ℕ)
    (hpos : 0 < probability_one values len target) :
    probability_one
        (renormalize (values.enum.map fun p =>
          if 2 ^ (len - target) / 2 ≤ p.1 % 2 ^ (len - target) then p.2 else 0))
        len target = 1 := by
  have hP := probability_one_eq values len target
  rw [probability_one_renorm_mask values len target
    (fun j => 2 ^ (len - target) / 2 ≤ j % 2 ^ (len - target))]
  have hcollapse : (∑ j in Finset.range values.length,
        if 2 ^ (len - target) / 2 ≤ j % 2 ^ (len - target) then
          (if 2 ^ (len - target) / 2 ≤ j % 2 ^ (len - target) then
            (values.getD j 0).abs_squared else 0) else 0)
      = ∑ j in Finset.range values.length,
          if 2 ^ (len - target) / 2 ≤ j % 2 ^ (len - target) then
            (values.getD j 0).abs_squared else 0 := by
    refine Finset.sum_congr rfl fun j _ => ?_
    by_cases hc : 2 ^ (len - target) / 2 ≤ j % 2 ^ (len - target) <;> simp [hc]
  rw [hcollapse, ← hP, Real.mul_self_sqrt (le_of_lt hpos),
    div_self (ne_of_gt hpos)]

theorem prob_renorm_neg (values : List Cplx) (len target : ℕ) :
    probability_one
        (renormalize (values.enum.map fun p =>
          if ¬ 2 ^ (len - target) / 2 ≤ p.1 % 2 ^ (len - target) then p.2 else 0))
        len target = 0 := by
  rw [probability_one_renorm_mask values len target
    (fun j => ¬ 2 ^ (len - target) / 2 ≤ j % 2 ^ (len - target))]
  have hzero : (∑ j in Finset.range values.length,
        if 2 ^ (len - target) / 2 ≤ j % 2 ^ (len - target) then
          (if ¬ 2 ^ (len - target) / 2 ≤ j % 2 ^ (len - target) then
            (values.getD j 0).abs_squared else 0) else 0) = 0 := by
    refine Finset.sum_eq_zero fun j _ => ?_
    by_cases hc : 2 ^ (len - target) / 2 ≤ j % 2 ^ (len - target) <;> simp [hc]
  rw [hzero, zero_div]

/-- Claim C7: measurement collapse is idempotent.  On a normalized state,
if `measure_single` at track `target` with uniform draw `u1` returns bit
`b` (collapsing and renormalizing the state), an immediately repeated
`measure_single` at the same track returns the same bit `b` for every
second draw `u2 ∈ [0, 1)`: after a `1` outcome the collapsed state's
outcome-1 probability is exactly `1`, after a `0` outcome it is exactly
`0`. -/
theorem claim_C7_measure_collapse_idempotent (values : List Cplx)
    (len target : ℕ) (u1 u2 : ℝ) (_hnorm : sumAbsSq values = 1)
    (h10 : 0 ≤ u1) (_h11 : u1 < 1) (h20 : 0 ≤ u2) (h21 : u2 < 1) :
    (measure_single (measure_single values len target u1).2 len target u2).1
      = (measure_single values len target u1).1 := by
  by_cases h1 : u1 < probability_one values len target
  · have hpos : 0 < probability_one values len target := lt_of_le_of_lt h10 h1
    rw [measure_single_snd_pos values len target u1 h1, measure_single_fst,
      measure_single_fst, if_pos h1, prob_renorm_pos values len target hpos,
      if_pos h21]
  · rw [measure_single_snd_neg values len target u1 h1, measure_single_fst,
      measure_single_fst, if_neg h1, prob_renorm_neg values len target,
      if_neg (not_lt.mpr h20)]

/-- Witness for `claim_C7_measure_collapse_idempotent`: the state `|1⟩`
measured twice at track 0 with draws `1/2` gives the same bit both
times. -/
theorem claim_C7_measure_collapse_idempotent_witness :
    (measure_single (measure_single [(0 : Cplx), 1] 1 0 (1 / 2)).2 1 0 (1 / 2)).1
      = (measure_single [(0 : Cplx), 1] 1 0 (1 / 2)).1 :=
  claim_C7_measure_collapse_idempotent [(0 : Cplx), 1] 1 0 (1 / 2) (1 / 2)
    (by simp [sumAbsSq, Cplx.abs_squared]) (by norm_num) (by norm_num)
    (by norm_num) (by norm_num)

/-! ## Identity-operator lemmas (C9) -/

theorem cplx_mul_one (x : Cplx) : x * 1 = x := by
  apply Cplx.ext_iff' <;> simp

theorem cplx_mul_zero (x : Cplx) : x * 0 = 0 := by
  apply Cplx.ext_iff' <;> simp

theorem cplx_zero_mul (x : Cplx) : 0 * x = 0 := by
  apply Cplx.ext_iff' <;> simp

theorem range_double (n : ℕ) :
    List.range (2 * n) = (List.range n).flatMap fun i => [2 * i, 2 * i + 1] := by
  induction n with
  | zero => rfl
  | succ n ih =>
    rw [show 2 * (n + 1) = 2 * n + 1 + 1 by ring, List.range_succ, List.range_succ,
      List.range_succ, ih]
    simp [List.flatMap_append]

theorem flatMap_congr_fun {α β : Type} (l : List α) (f g : α → List β)
    (h : ∀ x, f x = g x) : l.flatMap f = l.flatMap g := by
  rw [funext h]

theorem kron_idMat_identity2 (a : ℕ) :
    kronecker (idMat a) identity2 = idMat (2 * a) := by
  unfold kronecker idMat identity2
  rw [range_double, List.flatMap_map, List.map_flatMap]
  apply flatMap_congr_fun
  intro i
  simp only [List.map_cons, List.map_nil, List.flatMap_map]
  congr 1
  · rw [List.map_flatMap]
    apply flatMap_congr_fun
    intro j
    simp only [List.map_cons, List.map_nil]
    by_cases h : i = j
    · subst h
      rw [if_pos rfl, if_pos rfl, if_neg (show ¬ 2 * i = 2 * i + 1 by omega)]
      simp only [cplx_mul_one, cplx_mul_zero]
    · rw [if_neg h, if_neg (show ¬ 2 * i = 2 * j by omega),
        if_neg (show ¬ 2 * i = 2 * j + 1 by omega)]
      simp only [cplx_zero_mul]
  · congr 1
    rw [List.map_flatMap]
    apply flatMap_congr_fun
    intro j
    simp only [List.map_cons, List.map_nil]
    by_cases h : i = j
    · subst h
      rw [if_pos rfl, if_neg (show ¬ 2 * i + 1 = 2 * i by omega), if_pos rfl]
      simp only [cplx_mul_one, cplx_mul_zero]
    · rw [if_neg h, if_neg (show ¬ 2 * i + 1 = 2 * j by omega),
        if_neg (show ¬ 2 * i + 1 = 2 * j + 1 by omega)]
      simp only [cplx_zero_mul]

theorem two_pow_div_two_ne_three (k : ℕ) : ¬ 2 ^ k / 2 = 3 := by
  rcases k with _ | k
  · norm_num
  · rw [pow_succ, Nat.mul_div_cancel _ (by norm_num)]
    intro h
    rcases k with _ | _ | k
    · norm_num at h
    · norm_num at h
    · rw [pow_succ, pow_succ] at h
      omega

theorem apply_gate_loop_id (G : Mat) (n : ℕ) :
    ∀ fuel k, k ≤ n → n ≤ k + fuel →
      apply_gate_loop 3 G (2 ^ n) fuel (idMat (2 ^ k)) (2 ^ k) = idMat (2 ^ n) := by
  intro fuel
  induction fuel with
  | zero =>
    intro k h1 h2
    have hk : k = n := by omega
    subst hk
    rfl
  | succ fuel ih =>
    intro k h1 h2
    by_cases hlt : 2 ^ k < 2 ^ n
    · have hkn : k < n := by
        by_contra hc
        push_neg at hc
        exact absurd hlt (not_lt.mpr (Nat.pow_le_pow_right (by norm_num) hc))
      show (if 2 ^ k < 2 ^ n then _ else _) = _
      rw [if_pos hlt]
      dsimp only
      rw [if_neg (two_pow_div_two_ne_three k), kron_idMat_identity2]
      have e1 : 2 * 2 ^ k = 2 ^ (k + 1) := by rw [pow_succ]; ring
      have e2 : 2 ^ k * identity2.length = 2 ^ (k + 1) := by
        show 2 ^ k * 2 = _
        rw [pow_succ]
      rw [e1, e2]
      exact ih (k + 1) (by omega) (by omega)
    · show (if 2 ^ k < 2 ^ n then _ else _) = _
      rw [if_neg hlt]
      have hk : k = n := by
        have := (Nat.pow_le_pow_iff_right (a := 2) (by norm_num)).mp (not_lt.mp hlt)
        omega
      subst hk
      rfl

theorem zipWith_map_range_sum (l : List Cplx) (f : ℕ → Cplx) :
    (List.zipWith (· * ·) ((List.range l.length).map f) l).sum
      = ∑ j in Finset.range l.length, f j * l.getD j 0 := by
  induction l generalizing f with
  | nil => simp
  | cons x xs ih =>
    simp only [List.length_cons, List.range_succ_eq_map, List.map_cons, List.map_map,
      List.zipWith_cons_cons, List.sum_cons, Finset.sum_range_succ',
      List.getD_cons_succ, List.getD_cons_zero]
    rw [show (List.map (f ∘ Nat.succ) (List.range xs.length)) =
        (List.map (fun j => f (j + 1)) (List.range xs.length)) from rfl]
    rw [ih fun j => f (j + 1)]
    exact add_comm _ _

theorem map_getD_range (v : List Cplx) :
    (List.range v.length).map (fun i => v.getD i 0) = v := by
  apply List.ext_getElem (by simp)
  intro i h1 h2
  simp only [List.getElem_map, List.getElem_range]
  rw [List.getD_eq_getElem _ _ h2]

theorem dot_idMat (v : List Cplx) : dot (idMat v.length) v = v := by
  unfold dot idMat
  rw [List.map_map]
  have step : ∀ i ∈ List.range v.length,
      ((fun row => (List.zipWith (· * ·) row v).sum) ∘ fun i =>
          (List.range v.length).map fun j => if i = j then (1 : Cplx) else 0) i
        = v.getD i 0 := by
    intro i hi
    have hi' : i < v.length := List.mem_range.mp hi
    show (List.zipWith (· * ·)
        ((List.range v.length).map fun j => if i = j then (1 : Cplx) else 0) v).sum = _
    rw [zipWith_map_range_sum v fun j => if i = j then (1 : Cplx) else 0]
    have : ∀ j ∈ Finset.range v.length,
        (if i = j then (1 : Cplx) else 0) * v.getD j 0
          = if i = j then v.getD j 0 else 0 := by
      intro j _
      by_cases h : i = j
      · subst h
        rw [if_pos rfl, if_pos rfl]
        apply Cplx.ext_iff' <;> simp
      · rw [if_neg h, if_neg h, cplx_zero_mul]
    rw [Finset.sum_congr rfl this, Finset.sum_ite_eq]
    rw [if_pos (Finset.mem_range.mpr hi')]
  rw [List.map_congr_left step, map_getD_range]

/-- Claim C9: targeting qubit index `3` composes the identity operator.
In `apply_gate` the gate factor is inserted only when the running
Kronecker dimension halved (`gate_size / 2`, which only takes values
`0, 1, 2, 4, 8, …`) equals the target, so for target `3` every factor is
`I₂` and the amplitude vector is returned unchanged — for every 2×2 (or
any) matrix `G` and every state of `n ≥ 4` qubits. -/
theorem claim_C9_apply_gate_target3_identity (n : ℕ) (v : List Cplx) (G : Mat)
    (hn : 4 ≤ n) (hv : v.length = 2 ^ n) :
    apply_gate v 3 G = v := by
  unfold apply_gate
  rw [hv]
  have h0 : ([[(1 : Cplx)]] : Mat) = idMat (2 ^ 0) := by
    unfold idMat
    rw [show List.range (2 ^ 0) = [0] from rfl]
    simp
  have h1 : (1 : ℕ) = 2 ^ 0 := rfl
  rw [h0]
  conv_lhs => rw [h1]
  rw [apply_gate_loop_id G n (2 ^ n) 0 (by omega)
    (by have := Nat.lt_two_pow n; omega)]
  conv_lhs => rw [← hv]
  exact dot_idMat v

/-- Witness for `claim_C9_apply_gate_target3_identity`: a 4-qubit zero
state and `G = X`. -/
theorem claim_C9_apply_gate_target3_identity_witness :
    apply_gate (List.replicate 16 (0 : Cplx)) 3 pauli_x
      = List.replicate 16 (0 : Cplx) :=
  claim_C9_apply_gate_target3_identity 4 (List.replicate 16 (0 : Cplx)) pauli_x
    (by norm_num) (by simp)

/-! ## Iterated partial trace (C2) -/

theorem sum_range_double (f : ℕ → Cplx) (n : ℕ) :
    ∑ k in Finset.range (2 * n), f k
      = ∑ k in Finset.range n, (f (2 * k) + f (2 * k + 1)) := by
  induction n with
  | zero => simp
  | succ n ih =>
    rw [show 2 * (n + 1) = 2 * n + 1 + 1 by ring, Finset.sum_range_succ,
      Finset.sum_range_succ, Finset.sum_range_succ, ih, add_assoc]

theorem ins_double (k t x : ℕ) : ins (2 * k) (t + 1) x = 2 * ins k t x := by
  have h := ins_succ k t x 0 (by omega)
  simpa using h

theorem ins_double_one (k t x : ℕ) :
    ins (2 * k + 1) (t + 1) x = 2 * ins k t x + 1 :=
  ins_succ k t x 1 (by omega)

theorem ins_low_then_one (k x v : ℕ) (hx : x ≤ 1) :
    ins (2 * k + x) 1 v = 2 * (2 * k + v) + x := by
  have h := ins_succ k 0 v x hx
  rw [ins_zero] at h
  exact h

theorem bloch_loop_shift (l : List ℕ) :
    ∀ t removed size ρ,
      bloch_loop (l.map Nat.succ) (t + 1) (removed + 1) size ρ
        = bloch_loop l t removed size ρ := by
  induction l with
  | nil => intro t removed size ρ; rfl
  | cons i rest ih =>
    intro t removed size ρ
    simp only [List.map_cons, bloch_loop]
    by_cases h : i = t
    · subst h
      rw [if_neg (by omega), if_neg (by omega)]
      exact ih i removed size ρ
    · rw [if_pos (by omega), if_pos (by omega),
        show Nat.succ i - (removed + 1) = i - removed by omega]
      exact ih t (removed + 1) (size - 1) (partial_trace ρ (i - removed) size)

theorem bloch_loop_zero (m : ℕ) :
    ∀ r size ρ,
      bloch_loop ((List.range m).map (· + (r + 1))) 0 r size ρ
        = pt1_iter m size ρ := by
  induction m with
  | zero => intro r size ρ; rfl
  | succ m ih =>
    intro r size ρ
    rw [List.range_succ_eq_map]
    simp only [List.map_cons, List.map_map]
    have hcomp : ((fun x => x + (r + 1)) ∘ Nat.succ) = (fun x => x + (r + 1 + 1)) := by
      funext a
      simp only [Function.comp_apply]
      omega
    rw [hcomp]
    simp only [bloch_loop]
    rw [if_pos (by omega), show 0 + (r + 1) - r = 1 by omega]
    exact ih (r + 1) (size - 1) (partial_trace ρ 1 size)

theorem pt1_iter_eq (m : ℕ) :
    ∀ ρ x y, x ≤ 1 → y ≤ 1 →
      entry (pt1_iter m (m + 1) ρ) x y = traceAllBut ρ (m + 1) 0 x y := by
  induction m with
  | zero =>
    intro ρ x y hx hy
    show entry ρ x y = _
    unfold traceAllBut
    simp only [Nat.add_sub_cancel, pow_zero, Finset.sum_range_one, ins_zero]
    norm_num
  | succ m ih =>
    intro ρ x y hx hy
    show entry (pt1_iter m (m + 1) (partial_trace ρ 1 (m + 2))) x y = _
    rw [ih (partial_trace ρ 1 (m + 2)) x y hx hy]
    unfold traceAllBut
    simp only [Nat.add_sub_cancel]
    have step : ∀ k ∈ Finset.range (2 ^ m),
        entry (partial_trace ρ 1 (m + 2)) (ins k 0 x) (ins k 0 y)
          = entry ρ (ins (2 * k) 0 x) (ins (2 * k) 0 y)
            + entry ρ (ins (2 * k + 1) 0 x) (ins (2 * k + 1) 0 y) := by
      intro k hk
      have hk' : k < 2 ^ m := Finset.mem_range.mp hk
      have hbx : ins k 0 x < 2 ^ (m + 2 - 1) :=
        ins_lt (n := m + 1) (by simpa using hk') hx (by omega)
      have hby : ins k 0 y < 2 ^ (m + 2 - 1) :=
        ins_lt (n := m + 1) (by simpa using hk') hy (by omega)
      rw [entry_partial_trace ρ 1 (m + 2) _ _ (by omega) hbx hby]
      simp only [ins_zero]
      rw [ins_low_then_one k x 0 hx, ins_low_then_one k y 0 hy,
        ins_low_then_one k x 1 hx, ins_low_then_one k y 1 hy]
      simp only [Nat.add_zero]
    rw [Finset.sum_congr rfl step,
      show (2 : ℕ) ^ (m + 1) = 2 * 2 ^ m by rw [pow_succ]; ring,
      sum_range_double (fun K => entry ρ (ins K 0 x) (ins K 0 y)) (2 ^ m)]

theorem traceAllBut_pt_zero (ρ : Mat) (m t x y : ℕ) (ht : t < m)
    (hx : x ≤ 1) (hy : y ≤ 1) :
    traceAllBut (partial_trace ρ 0 (m + 1)) m t x y
      = traceAllBut ρ (m + 1) (t + 1) x y := by
  unfold traceAllBut
  simp only [Nat.add_sub_cancel]
  have step : ∀ k ∈ Finset.range (2 ^ (m - 1)),
      entry (partial_trace ρ 0 (m + 1)) (ins k t x) (ins k t y)
        = entry ρ (ins (2 * k) (t + 1) x) (ins (2 * k) (t + 1) y)
          + entry ρ (ins (2 * k + 1) (t + 1) x) (ins (2 * k + 1) (t + 1) y) := by
    intro k hk
    have hk' : k < 2 ^ (m - 1) := Finset.mem_range.mp hk
    have hbx : ins k t x < 2 ^ (m + 1 - 1) := by
      simpa using ins_lt hk' hx ht
    have hby : ins k t y < 2 ^ (m + 1 - 1) := by
      simpa using ins_lt hk' hy ht
    rw [entry_partial_trace ρ 0 (m + 1) _ _ (by omega) hbx hby]
    simp only [ins_zero]
    rw [ins_double k t x, ins_double k t y, ins_double_one k t x,
      ins_double_one k t y]
    simp only [Nat.add_zero]
  rw [Finset.sum_congr rfl step]
  have e : (2 : ℕ) ^ m = 2 * 2 ^ (m - 1) := by
    obtain ⟨m', rfl⟩ : ∃ m', m = m' + 1 := ⟨m - 1, by omega⟩
    rw [pow_succ']
    simp
  rw [e, sum_range_double
    (fun K => entry ρ (ins K (t + 1) x) (ins K (t + 1) y)) (2 ^ (m - 1))]

theorem bloch_loop_main (m : ℕ) :
    ∀ t ρ x y, t < m → x ≤ 1 → y ≤ 1 →
      entry (bloch_loop (List.range m) t 0 m ρ) x y = traceAllBut ρ m t x y := by
  induction m with
  | zero => intro t ρ x y ht _ _; omega
  | succ m ih =>
    intro t ρ x y ht hx hy
    rw [List.range_succ_eq_map]
    match t with
    | 0 =>
      simp only [bloch_loop]
      rw [if_neg (by omega)]
      have hmap : (List.range m).map Nat.succ = (List.range m).map (· + (0 + 1)) := by
        apply List.map_congr_left
        intro a _
        omega
      rw [hmap, bloch_loop_zero m 0 (m + 1) ρ]
      exact pt1_iter_eq m ρ x y hx hy
    | t + 1 =>
      simp only [bloch_loop]
      rw [if_pos (by omega)]
      have key := bloch_loop_shift (List.range m) t 0 m (partial_trace ρ 0 (m + 1))
      have goalstep :
          bloch_loop ((List.range m).map Nat.succ) (t + 1) (0 + 1) (m + 1 - 1)
              (partial_trace ρ (0 - 0) (m + 1))
            = bloch_loop (List.range m) t 0 m (partial_trace ρ 0 (m + 1)) := key
      rw [goalstep, ih t (partial_trace ρ 0 (m + 1)) x y (by omega) hx hy]
      exact traceAllBut_pt_zero ρ m t x y (by omega) hx hy

/-- Claim C2, counterexample: for the two-qubit state `|01⟩` (track 0 is
`|0⟩`, track 1 is `|1⟩`), the iterated-partial-trace loop run for track 0
produces `diag(0, 1)` — the reduced density matrix of track **1** — whose
`(0,0)` entry `0` differs from the `(0,0)` entry `1` of track 0's reduced
density matrix. -/
theorem claim_C2_counterexample :
    entry (bloch_reduce ket01 0 2) 0 0 ≠ reduced_density_track ket01 2 0 0 0 := by
  have hL : entry (bloch_reduce ket01 0 2) 0 0 = 0 := by
    unfold bloch_reduce
    rw [show List.range 2 = [0, 1] from rfl]
    simp only [bloch_loop]
    rw [if_neg (by omega), if_pos (by omega)]
    rw [entry_partial_trace _ 1 2 0 0 (by omega) (by norm_num) (by norm_num)]
    rw [show ins 0 1 0 = 0 by decide, show ins 0 1 1 = 2 by decide]
    unfold density_matrix
    rw [entry_mkMat _ _ _ 0 0 (by decide) (by decide),
      entry_mkMat _ _ _ 2 2 (by decide) (by decide)]
    show (ket01.getD 0 0).conjugate * ket01.getD 0 0
        + (ket01.getD 2 0).conjugate * ket01.getD 2 0 = 0
    rw [show ket01.getD 0 0 = 0 from rfl, show ket01.getD 2 0 = 0 from rfl]
    rw [cplx_mul_zero]
    apply Cplx.ext_iff' <;> simp
  have hR : reduced_density_track ket01 2 0 0 0 = 1 := by
    unfold reduced_density_track
    rw [show (2 : ℕ) ^ (2 - 1) = 2 from rfl, Finset.sum_range_succ,
      Finset.sum_range_one]
    rw [show ins 0 (2 - 1 - 0) 0 = 0 by decide, show ins 1 (2 - 1 - 0) 0 = 1 by decide]
    rw [show ket01.getD 0 0 = 0 from rfl, show ket01.getD 1 0 = 1 from rfl]
    rw [cplx_mul_zero]
    apply Cplx.ext_iff' <;> simp [Cplx.conjugate]
  rw [hL, hR]
  intro h
  have h0 := congrArg Cplx.real h
  simp at h0

/-- Claim C2, amended: the 2×2 matrix the step loop extracts for track `t`
is the reduced density matrix of track `n − 1 − t`, not of track `t`.  The
loop passes `i − removed` to `partial_trace`, but `partial_trace` counts
its qubit index from the least significant bit while the register's
Kronecker ordering (the `measure_single` convention, track 0 = most
significant bit) puts track `u` at bit `n − 1 − u`; the net effect is that
bit position `t` — track `n − 1 − t` — is the one kept. -/
theorem claim_C2_bloch_reduce_mirrored_track (n t : ℕ) (values : List Cplx)
    (x y : ℕ) (_hn : 2 ≤ n) (ht : t < n) (hlen : values.length = 2 ^ n)
    (hx : x ≤ 1) (hy : y ≤ 1) :
    entry (bloch_reduce values t n) x y
      = reduced_density_track values n (n - 1 - t) x y := by
  unfold bloch_reduce
  rw [bloch_loop_main n t (density_matrix values) x y ht hx hy]
  unfold traceAllBut reduced_density_track
  have htrack : n - 1 - (n - 1 - t) = t := by omega
  rw [htrack]
  refine Finset.sum_congr rfl fun k hk => ?_
  have hk' : k < 2 ^ (n - 1) := Finset.mem_range.mp hk
  have hbx : ins k t x < values.length := by
    rw [hlen]
    exact ins_lt hk' hx ht
  have hby : ins k t y < values.length := by
    rw [hlen]
    exact ins_lt hk' hy ht
  unfold density_matrix
  rw [entry_mkMat _ _ _ _ _ hbx hby]

/-- Witness for `claim_C2_bloch_reduce_mirrored_track`: on `|01⟩` with
`n = 2`, the loop output for track 0 agrees entrywise (at `(0,0)`) with
the reduced density matrix of track `1 = n − 1 − 0`. -/
theorem claim_C2_bloch_reduce_mirrored_track_witness :
    entry (bloch_reduce ket01 0 2) 0 0 = reduced_density_track ket01 2 1 0 0 :=
  claim_C2_bloch_reduce_mirrored_track 2 0 ket01 0 0 (by norm_num) (by norm_num)
    rfl (by norm_num) (by norm_num)

/-! ## Normalization breakage by the source's RY (C1) -/

theorem cplx_one_mul (x : Cplx) : 1 * x = x := by
  apply Cplx.ext_iff' <;> simp

/-- Claim C1: evaluation at the failing input.  The normalized one-qubit
state `(√2/2)(|0⟩ + i|1⟩)` fed through a single catalog column
`[RY(π/2)]` via `apply_gates` (no measurement involved) comes out with
squared norm `2`, far outside `ε` of `1`: the source's `ry` matrix is not
unitary, so the normalization invariant fails on the code. -/
theorem claim_C1_ry_breaks_normalization :
    sumAbsSq ryState = 1 ∧
    sumAbsSq (apply_gates ⟨ryState, 1⟩ [Gate.RY (Real.pi / 2)] []).values = 2 := by
  have h2 : Real.sqrt 2 * Real.sqrt 2 = 2 := Real.mul_self_sqrt (by norm_num)
  have hc : Real.cos (Real.pi / 2 / 2) = Real.sqrt 2 / 2 := by
    rw [show Real.pi / 2 / 2 = Real.pi / 4 by ring, Real.cos_pi_div_four]
  have hs : Real.sin (Real.pi / 2 / 2) = Real.sqrt 2 / 2 := by
    rw [show Real.pi / 2 / 2 = Real.pi / 4 by ring, Real.sin_pi_div_four]
  constructor
  · simp only [sumAbsSq, ryState, List.map_cons, List.map_nil, List.sum_cons,
      List.sum_nil, Cplx.abs_squared]
    nlinarith [h2]
  · simp only [apply_gates, apply_gates_loop, Gate.isM, Gate.isOther,
      Gate.to_matrix, kronecker, dot, ry, ryState, sumAbsSq, Cplx.abs_squared,
      hc, hs, cplx_one_mul, List.flatMap_cons, List.flatMap_nil, List.map_cons,
      List.map_nil, List.append_nil, List.zipWith_cons_cons, List.zipWith_nil_right,
      List.sum_cons, List.sum_nil, Cplx.add_def, Cplx.mul_real, Cplx.mul_imaginary,
      Cplx.zero_real, Cplx.zero_imaginary, if_false, Bool.false_eq_true]
    nlinarith [h2]


end

end Quantum
